import Mathlib

/-!
Verification of the Koch-style fractal generator (`Q3 fractal.py`).

The core of the program builds a regular polygon, then repeatedly replaces
every edge of the closed polyline by the four-segment Koch bump.  We embed
the point-producing functions over `ℝ × ℝ` (Python floats become exact
reals) and the summary/metrics arithmetic, and prove the spec's claims
about them.
-/

namespace Fractal

/-- A 2D point, as the `(x, y)` tuples used throughout the Python source. -/
abbrev Point : Type := ℝ × ℝ

/-- Euclidean distance between two points (used to state edge-length facts). -/
noncomputable def ptDist (p q : Point) : ℝ :=
  Real.sqrt ((q.1 - p.1) ^ 2 + (q.2 - p.2) ^ 2)

/-- Vertex `k` of the regular polygon: the loop body of `regular_polygon`
(`theta = 2*pi*k/n`, `x = R*cos theta`, `y = R*sin theta` with
`R = side_len / (2*sin(pi/n))`). -/
noncomputable def polyVertex (n : ℕ) (s : ℝ) (k : ℕ) : Point :=
  let R := s / (2 * Real.sin (Real.pi / n))
  (R * Real.cos (2 * Real.pi * k / n), R * Real.sin (2 * Real.pi * k / n))

/-- `regular_polygon(n_sides, side_len)`: raises `ValueError` when
`n_sides < 3`, otherwise the `n` vertices followed by a copy of the first
point (`pts.append(pts[0])`). -/
noncomputable def regular_polygon (n : ℕ) (s : ℝ) : Except String (List Point) :=
  if n < 3 then
    .error "Number of sides must be >= 3"
  else
    let pts := (List.range n).map (polyVertex n s)
    .ok (pts ++ [pts.headD (0, 0)])

/-- `koch_subdivide(p0, p1)`: the five points `[p0, a, peak, b, p1]`. -/
noncomputable def koch_subdivide (p0 p1 : Point) : List Point :=
  let dx := p1.1 - p0.1
  let dy := p1.2 - p0.2
  let a : Point := (p0.1 + dx / 3, p0.2 + dy / 3)
  let b : Point := (p0.1 + 2 * dx / 3, p0.2 + 2 * dy / 3)
  let ux := dx / 3
  let uy := dy / 3
  let cos60 : ℝ := 1 / 2
  let sin60 : ℝ := Real.sqrt 3 / 2
  let peak : Point := (a.1 + ux * cos60 - uy * sin60, a.2 + ux * sin60 + uy * cos60)
  [p0, a, peak, b, p1]

/-- `koch_iter(points)`: subdivide every consecutive pair, keep the first
four of the five points of each subdivision (`seg_points[:-1]`), then
re-close with the first new point (`new_pts.append(new_pts[0])`; the
Python code indexes an empty list there when `points` has fewer than two
points, a case `generate_fractal` never produces — we return the default
point in that unreachable case). -/
noncomputable def koch_iter (points : List Point) : List Point :=
  let new_pts :=
    (points.zip points.tail).flatMap fun pq => (koch_subdivide pq.1 pq.2).dropLast
  new_pts ++ [new_pts.headD (0, 0)]

/-- `generate_fractal(n_sides, side_len, depth)`: the base polygon with
`koch_iter` applied once per loop turn of `for _ in range(depth)` — a
negative `depth` gives zero turns, exactly as Python's `range`. -/
noncomputable def generate_fractal (n : ℕ) (s : ℝ) (depth : ℤ) :
    Except String (List Point) :=
  match regular_polygon n s with
  | .error e => .error e
  | .ok pts => .ok (koch_iter^[depth.toNat] pts)

/-- `segments = n_sides * (4 ** depth)` from `write_summary`. -/
def segment_count (n depth : ℕ) : ℕ := n * 4 ^ depth

/-- `seg_len = side_len / (3 ** depth)` from `write_summary` (the
`depth >= 0` branch; negative depth never reaches `write_summary` with the
`float('nan')` value in any claim). -/
noncomputable def segment_length (s : ℝ) (depth : ℕ) : ℝ := s / 3 ^ depth

/-- `perimeter = segments * seg_len` from `write_summary`. -/
noncomputable def perimeter (n : ℕ) (s : ℝ) (depth : ℕ) : ℝ :=
  (segment_count n depth : ℝ) * segment_length s depth

/-! ### The subdivision points, named -/

/-- First trisection point `a` of `koch_subdivide`. -/
noncomputable def kA (p0 p1 : Point) : Point :=
  (p0.1 + (p1.1 - p0.1) / 3, p0.2 + (p1.2 - p0.2) / 3)

/-- Second trisection point `b` of `koch_subdivide`. -/
noncomputable def kB (p0 p1 : Point) : Point :=
  (p0.1 + 2 * (p1.1 - p0.1) / 3, p0.2 + 2 * (p1.2 - p0.2) / 3)

/-- The `peak` of `koch_subdivide`: `a` plus the third of the segment
vector rotated by +60 degrees. -/
noncomputable def kPeak (p0 p1 : Point) : Point :=
  ((kA p0 p1).1 + (p1.1 - p0.1) / 3 * (1 / 2) - (p1.2 - p0.2) / 3 * (Real.sqrt 3 / 2),
   (kA p0 p1).2 + (p1.1 - p0.1) / 3 * (Real.sqrt 3 / 2) + (p1.2 - p0.2) / 3 * (1 / 2))

theorem koch_subdivide_eq (p0 p1 : Point) :
    koch_subdivide p0 p1 = [p0, kA p0 p1, kPeak p0 p1, kB p0 p1, p1] := rfl

/-! ### Edge lengths of a subdivision -/

theorem sqrt_div_nine {A B : ℝ} (hB : 0 ≤ B) (h : A = B / 9) :
    Real.sqrt A = Real.sqrt B / 3 := by
  rw [h, Real.sqrt_div hB, show (9 : ℝ) = 3 ^ 2 by norm_num,
    Real.sqrt_sq (by norm_num : (0:ℝ) ≤ 3)]

theorem dist_p0_kA (p0 p1 : Point) : ptDist p0 (kA p0 p1) = ptDist p0 p1 / 3 := by
  obtain ⟨x0, y0⟩ := p0
  obtain ⟨x1, y1⟩ := p1
  unfold ptDist kA
  exact sqrt_div_nine (by positivity) (by ring)

theorem dist_kA_kPeak (p0 p1 : Point) :
    ptDist (kA p0 p1) (kPeak p0 p1) = ptDist p0 p1 / 3 := by
  obtain ⟨x0, y0⟩ := p0
  obtain ⟨x1, y1⟩ := p1
  have h3 : Real.sqrt 3 ^ 2 = 3 := Real.sq_sqrt (by norm_num)
  unfold ptDist kPeak kA
  refine sqrt_div_nine (by positivity) ?_
  dsimp only
  linear_combination ((((x1 - x0) / 3) ^ 2 + ((y1 - y0) / 3) ^ 2) / 4) * h3

theorem dist_kPeak_kB (p0 p1 : Point) :
    ptDist (kPeak p0 p1) (kB p0 p1) = ptDist p0 p1 / 3 := by
  obtain ⟨x0, y0⟩ := p0
  obtain ⟨x1, y1⟩ := p1
  have h3 : Real.sqrt 3 ^ 2 = 3 := Real.sq_sqrt (by norm_num)
  unfold ptDist kPeak kA kB
  refine sqrt_div_nine (by positivity) ?_
  dsimp only
  linear_combination ((((x1 - x0) / 3) ^ 2 + ((y1 - y0) / 3) ^ 2) / 4) * h3

theorem dist_kB_p1 (p0 p1 : Point) : ptDist (kB p0 p1) p1 = ptDist p0 p1 / 3 := by
  obtain ⟨x0, y0⟩ := p0
  obtain ⟨x1, y1⟩ := p1
  unfold ptDist kB
  exact sqrt_div_nine (by positivity) (by ring)

/-- All four consecutive distances within a subdivision. -/
theorem koch_subdivide_chain (p0 p1 : Point) :
    List.Chain' (fun p q => ptDist p q = ptDist p0 p1 / 3) (koch_subdivide p0 p1) := by
  rw [koch_subdivide_eq]
  refine List.chain'_cons.2 ⟨dist_p0_kA p0 p1, ?_⟩
  refine List.chain'_cons.2 ⟨dist_kA_kPeak p0 p1, ?_⟩
  refine List.chain'_cons.2 ⟨dist_kPeak_kB p0 p1, ?_⟩
  exact List.chain'_cons.2 ⟨dist_kB_p1 p0 p1, List.chain'_singleton p1⟩

/-! ### The interior of one Koch iteration, pairwise -/

/-- The interior point list of `koch_iter` (everything before the final
re-closing point), as a structural recursion over consecutive pairs. -/
noncomputable def kep : List Point → List Point
  | p :: q :: rest => (koch_subdivide p q).dropLast ++ kep (q :: rest)
  | _ => []

theorem koch_subdivide_dropLast (p q : Point) :
    (koch_subdivide p q).dropLast = [p, kA p q, kPeak p q, kB p q] := rfl

theorem kep_cons₂ (p q : Point) (rest : List Point) :
    kep (p :: q :: rest) = [p, kA p q, kPeak p q, kB p q] ++ kep (q :: rest) := rfl

/-- The `flatMap` over zipped consecutive pairs in `koch_iter` computes
`kep`. -/
theorem kep_eq_flatMap :
    ∀ l : List Point,
      (l.zip l.tail).flatMap (fun pq => (koch_subdivide pq.1 pq.2).dropLast) = kep l
  | [] => rfl
  | [_] => rfl
  | p :: q :: rest => by
      have ih := kep_eq_flatMap (q :: rest)
      simp only [List.tail_cons, List.zip_cons_cons, List.flatMap_cons] at ih ⊢
      rw [ih, kep_cons₂, koch_subdivide_dropLast]

theorem koch_iter_eq_kep (l : List Point) :
    koch_iter l = kep l ++ [(kep l).headD (0, 0)] := by
  unfold koch_iter
  rw [kep_eq_flatMap]

theorem kep_length : ∀ l : List Point, (kep l).length = 4 * (l.length - 1)
  | [] => rfl
  | [_] => rfl
  | p :: q :: rest => by
      rw [kep_cons₂]
      have ih := kep_length (q :: rest)
      simp only [List.length_append, List.length_cons, List.length_nil] at ih ⊢
      omega

theorem kep_head (p q : Point) (rest : List Point) :
    (kep (p :: q :: rest)).head? = some p := by
  rw [kep_cons₂]; rfl

theorem kep_headD (p q : Point) (rest : List Point) :
    (kep (p :: q :: rest)).headD (0, 0) = p := by
  rw [kep_cons₂]; rfl

/-- Edges of `kep l ++ [z]` all have one third of the common edge length of
`l`, when `z` is the last point of `l`. -/
theorem kep_chain (d : ℝ) :
    ∀ (l : List Point) (z : Point),
      List.Chain' (fun p q => ptDist p q = d) l → l.getLast? = some z →
      List.Chain' (fun p q => ptDist p q = d / 3) (kep l ++ [z])
  | [], _, _, hz => by simp at hz
  | [p], z, _, _ => by
      have h : kep [p] = [] := rfl
      rw [h]
      exact List.chain'_singleton z
  | p :: q :: rest, z, hchain, hz => by
      have hpq : ptDist p q = d := (List.chain'_cons.1 hchain).1
      have hrest := (List.chain'_cons.1 hchain).2
      cases rest with
      | nil =>
          have hzq : q = z := by simpa using hz
          subst hzq
          have h := koch_subdivide_chain p q
          rw [koch_subdivide_eq, hpq] at h
          have hk : kep [p, q] ++ [q] = [p, kA p q, kPeak p q, kB p q, q] := rfl
          rw [hk]
          exact h
      | cons r rest' =>
          have hz' : (q :: r :: rest').getLast? = some z := by
            rw [← hz]; rfl
          have ih := kep_chain d (q :: r :: rest') z hrest hz'
          rw [kep_cons₂]
          simp only [List.cons_append, List.nil_append, List.append_assoc]
          refine List.chain'_cons.2 ⟨by rw [dist_p0_kA, hpq], ?_⟩
          refine List.chain'_cons.2 ⟨by rw [dist_kA_kPeak, hpq], ?_⟩
          refine List.chain'_cons.2 ⟨by rw [dist_kPeak_kB, hpq], ?_⟩
          refine (List.chain'_cons').2 ⟨?_, ih⟩
          intro y hy
          rw [kep_cons₂] at hy
          simp only [List.cons_append, List.head?_cons, Option.mem_def,
            Option.some.injEq] at hy
          rw [← hy, dist_kB_p1, hpq]

/-! ### The base polygon -/

theorem sin_pi_div_pos {n : ℕ} (hn : 3 ≤ n) : 0 < Real.sin (Real.pi / n) := by
  have hn0 : (0:ℝ) < n := by exact_mod_cast (by omega : 0 < n)
  have h1 : (1:ℝ) < n := by exact_mod_cast (by omega : 1 < n)
  exact Real.sin_pos_of_pos_of_lt_pi (div_pos Real.pi_pos hn0)
    (div_lt_self Real.pi_pos h1)

theorem polyVertex_zero (n : ℕ) (s : ℝ) :
    polyVertex n s 0 = (s / (2 * Real.sin (Real.pi / n)), 0) := by
  simp [polyVertex]

theorem polyVertex_top {n : ℕ} (hn : 3 ≤ n) (s : ℝ) :
    polyVertex n s n = polyVertex n s 0 := by
  have hnR : (n:ℝ) ≠ 0 := by
    exact_mod_cast (by omega : n ≠ 0)
  simp only [polyVertex]
  have h : 2 * Real.pi * (n:ℝ) / n = 2 * Real.pi := by field_simp
  rw [h]
  simp [Real.cos_two_pi, Real.sin_two_pi]

/-- Every edge of the infinite vertex sequence has length `s`: consecutive
vertices subtend the angle `2π/n`, and `R = s / (2 sin(π/n))`. -/
theorem polyVertex_edge {n : ℕ} (hn : 3 ≤ n) {s : ℝ} (hs : 0 < s) (k : ℕ) :
    ptDist (polyVertex n s k) (polyVertex n s (k + 1)) = s := by
  have hn0 : (0:ℝ) < n := by exact_mod_cast (by omega : 0 < n)
  have hsin : 0 < Real.sin (Real.pi / n) := sin_pi_div_pos hn
  unfold ptDist polyVertex
  dsimp only
  push_cast
  set R := s / (2 * Real.sin (Real.pi / n)) with hRdef
  set α := 2 * Real.pi * ((k:ℝ) + 1) / n with hα
  set β := 2 * Real.pi * (k:ℝ) / n with hβ
  have hRs : 2 * R * Real.sin (Real.pi / n) = s := by
    rw [hRdef]; field_simp; ring
  have hab : α - β = 2 * (Real.pi / n) := by
    rw [hα, hβ]; field_simp; ring
  have hc : Real.cos (2 * (Real.pi / n)) =
      Real.cos α * Real.cos β + Real.sin α * Real.sin β := by
    rw [← hab, Real.cos_sub]
  have h1 := Real.sin_sq_add_cos_sq α
  have h2 := Real.sin_sq_add_cos_sq β
  have h3 := Real.cos_two_mul (Real.pi / n)
  have h4 := Real.sin_sq_add_cos_sq (Real.pi / n)
  have key : (R * Real.cos α - R * Real.cos β) ^ 2 +
      (R * Real.sin α - R * Real.sin β) ^ 2 = s ^ 2 := by
    linear_combination R ^ 2 * h1 + R ^ 2 * h2 + 2 * R ^ 2 * hc - 2 * R ^ 2 * h3 -
      4 * R ^ 2 * h4 + (2 * R * Real.sin (Real.pi / n) + s) * hRs
  rw [key, Real.sqrt_sq hs.le]

/-- The successful result of `regular_polygon`, with the re-closing point
written as vertex `0`. -/
theorem regular_polygon_ok {n : ℕ} (hn : 3 ≤ n) (s : ℝ) :
    regular_polygon n s =
      .ok ((List.range n).map (polyVertex n s) ++ [polyVertex n s 0]) := by
  unfold regular_polygon
  rw [if_neg (by omega)]
  obtain ⟨m, rfl⟩ : ∃ m, n = m + 1 := ⟨n - 1, by omega⟩
  rw [List.range_succ_eq_map]
  rfl

/-- The polygon is the image of `0..n` under `polyVertex`, since vertex `n`
coincides with vertex `0`. -/
theorem regular_polygon_ok' {n : ℕ} (hn : 3 ≤ n) (s : ℝ) :
    regular_polygon n s = .ok ((List.range (n + 1)).map (polyVertex n s)) := by
  rw [regular_polygon_ok hn, List.range_succ, List.map_append]
  simp [polyVertex_top hn]

theorem regular_polygon_chain {n : ℕ} (hn : 3 ≤ n) {s : ℝ} (hs : 0 < s) :
    List.Chain' (fun p q => ptDist p q = s)
      ((List.range (n + 1)).map (polyVertex n s)) := by
  rw [List.chain'_map]
  exact (List.chain'_range_succ _ n).2 fun m _ => polyVertex_edge hn hs m

theorem regular_polygon_length {n : ℕ} (_hn : 3 ≤ n) (s : ℝ) :
    ((List.range (n + 1)).map (polyVertex n s)).length = n + 1 := by
  simp

theorem regular_polygon_head {n : ℕ} (hn : 3 ≤ n) (s : ℝ) :
    ((List.range (n + 1)).map (polyVertex n s)).head? = some (polyVertex n s 0) := by
  obtain ⟨m, rfl⟩ : ∃ m, n = m + 1 := ⟨n - 1, by omega⟩
  rw [List.range_succ_eq_map]
  rfl

theorem regular_polygon_last {n : ℕ} (hn : 3 ≤ n) (s : ℝ) :
    ((List.range (n + 1)).map (polyVertex n s)).getLast? = some (polyVertex n s 0) := by
  rw [List.range_succ, List.map_append]
  simp [polyVertex_top hn]

/-! ### One Koch iteration on a closed loop, and the full generator -/

/-- One `koch_iter` on a closed loop of common edge length `d`: the new
loop has `4·(old edge count)` edges, keeps the first point, stays closed,
and every edge shrinks to `d / 3`. -/
theorem koch_iter_props {d : ℝ} {l : List Point} (h2 : 2 ≤ l.length)
    (hclosed : l.head? = l.getLast?)
    (hchain : List.Chain' (fun p q => ptDist p q = d) l) :
    (koch_iter l).length = 4 * (l.length - 1) + 1 ∧
    (koch_iter l).head? = l.head? ∧
    (koch_iter l).getLast? = l.head? ∧
    List.Chain' (fun p q => ptDist p q = d / 3) (koch_iter l) := by
  obtain ⟨p, q, rest, rfl⟩ : ∃ p q rest, l = p :: q :: rest := by
    cases l with
    | nil => simp at h2
    | cons p t =>
      cases t with
      | nil => simp at h2
      | cons q rest => exact ⟨p, q, rest, rfl⟩
  have hlast : (p :: q :: rest).getLast? = some p := by
    rw [← hclosed]; rfl
  rw [koch_iter_eq_kep, kep_headD]
  refine ⟨?_, ?_, ?_, ?_⟩
  · rw [List.length_append, kep_length]
    simp
  · rw [kep_cons₂]
    rfl
  · rw [List.getLast?_concat]
    rfl
  · exact kep_chain d (p :: q :: rest) p hchain hlast

/-- The invariant after `k` Koch iterations of a closed loop. -/
theorem koch_iterate_props {d : ℝ} {l : List Point} (h2 : 2 ≤ l.length)
    (hclosed : l.head? = l.getLast?)
    (hchain : List.Chain' (fun p q => ptDist p q = d) l) (k : ℕ) :
    (koch_iter^[k] l).length - 1 = 4 ^ k * (l.length - 1) ∧
    (koch_iter^[k] l).head? = l.head? ∧
    (koch_iter^[k] l).head? = (koch_iter^[k] l).getLast? ∧
    List.Chain' (fun p q => ptDist p q = d / 3 ^ k) (koch_iter^[k] l) ∧
    2 ≤ (koch_iter^[k] l).length := by
  induction k with
  | zero =>
    refine ⟨by simp, by simp, by simpa using hclosed, ?_, by simpa using h2⟩
    simpa using hchain
  | succ k ih =>
    obtain ⟨ihlen, ihhead, ihclosed, ihchain, ih2⟩ := ih
    have hstep := koch_iter_props ih2 ihclosed ihchain
    obtain ⟨slen, shead, slast, schain⟩ := hstep
    rw [Function.iterate_succ_apply']
    refine ⟨?_, ?_, ?_, ?_, ?_⟩
    · rw [slen, ihlen]
      simp only [Nat.add_sub_cancel]
      ring
    · rw [shead, ihhead]
    · rw [shead, slast]
    · have h33 : d / 3 ^ k / 3 = d / 3 ^ (k + 1) := by
        rw [div_div, ← pow_succ]
      rw [← h33]
      exact schain
    · rw [slen]
      omega

/-- Everything the claims need about a successful `generate_fractal` run. -/
theorem generate_fractal_spec {n : ℕ} (hn : 3 ≤ n) {s : ℝ} (hs : 0 < s) (k : ℕ) :
    ∃ pts, generate_fractal n s (k : ℤ) = .ok pts ∧
      pts.length = n * 4 ^ k + 1 ∧
      pts.head? = some (polyVertex n s 0) ∧
      pts.head? = pts.getLast? ∧
      List.Chain' (fun p q => ptDist p q = s / 3 ^ k) pts := by
  have hgen : generate_fractal n s (k : ℤ) =
      .ok (koch_iter^[k] ((List.range (n + 1)).map (polyVertex n s))) := by
    unfold generate_fractal
    rw [regular_polygon_ok' hn]
    rfl
  have h2 : 2 ≤ ((List.range (n + 1)).map (polyVertex n s)).length := by
    rw [regular_polygon_length hn]
    omega
  have hcl : ((List.range (n + 1)).map (polyVertex n s)).head? =
      ((List.range (n + 1)).map (polyVertex n s)).getLast? := by
    rw [regular_polygon_head hn, regular_polygon_last hn]
  obtain ⟨hlen, hhead, hclosed, hchain, hge⟩ :=
    koch_iterate_props h2 hcl (regular_polygon_chain hn hs) k
  refine ⟨_, hgen, ?_, ?_, hclosed, hchain⟩
  · rw [regular_polygon_length hn] at hlen
    simp only [Nat.add_sub_cancel] at hlen
    have h1 : 1 ≤ (koch_iter^[k] ((List.range (n + 1)).map (polyVertex n s))).length := by
      omega
    rw [Nat.mul_comm] at hlen
    omega
  · rw [hhead, regular_polygon_head hn]

/-! ### Small helpers for the claims -/

theorem exists_cons_cons {l : List Point} (h2 : 2 ≤ l.length) :
    ∃ p q rest, l = p :: q :: rest := by
  cases l with
  | nil => simp at h2
  | cons p t =>
    cases t with
    | nil => simp at h2
    | cons q rest => exact ⟨p, q, rest, rfl⟩

/-- `koch_iter` keeps the first point of any list with at least two
points. -/
theorem koch_iter_head {l : List Point} (h2 : 2 ≤ l.length) :
    (koch_iter l).head? = l.head? := by
  obtain ⟨p, q, rest, rfl⟩ := exists_cons_cons h2
  rw [koch_iter_eq_kep, kep_headD, kep_cons₂]
  rfl

/-- The polygon as §4.1 of the spec words it: for `k = 0..sides−1` the
vertex at angle `2πk/sides` on the circle of circumradius
`length / (2·sin(π/sides))`, followed by a copy of vertex `0`. -/
noncomputable def specPolygon (n : ℕ) (s : ℝ) : List Point :=
  (List.range n).map (fun (k : ℕ) =>
    (s / (2 * Real.sin (Real.pi / n)) * Real.cos (2 * Real.pi * k / n),
     s / (2 * Real.sin (Real.pi / n)) * Real.sin (2 * Real.pi * k / n))) ++
  [(s / (2 * Real.sin (Real.pi / n)) * Real.cos 0,
    s / (2 * Real.sin (Real.pi / n)) * Real.sin 0)]

/-! ### The claims -/

/-- C1: for every sides ≥ 3, depth ≥ 0 and length > 0, `generate_fractal`
returns a point sequence whose first and last points are equal and whose
edge count (vertex count minus one) is `sides × 4^depth`, which is exactly
the analytic segment count of the summary computation. -/
theorem claim_C1 (n : ℕ) (s : ℝ) (d : ℕ) (hn : 3 ≤ n) (hs : 0 < s) :
    ∃ pts, generate_fractal n s (d : ℤ) = .ok pts ∧
      pts.head? = pts.getLast? ∧
      pts.length - 1 = n * 4 ^ d ∧
      pts.length - 1 = segment_count n d := by
  obtain ⟨pts, hgen, hlen, _, hclosed, _⟩ := generate_fractal_spec hn hs d
  refine ⟨pts, hgen, hclosed, ?_, ?_⟩
  · rw [hlen, Nat.add_sub_cancel]
  · rw [hlen, Nat.add_sub_cancel]
    rfl

theorem claim_C1_witness :
    ∃ pts, generate_fractal 3 1 ((2 : ℕ) : ℤ) = .ok pts ∧
      pts.head? = pts.getLast? ∧
      pts.length - 1 = 3 * 4 ^ 2 ∧
      pts.length - 1 = segment_count 3 2 :=
  claim_C1 3 1 2 (by norm_num) (by norm_num)

/-- C2 as stated is false on the code: `depth = -1` raises nothing —
`generate_fractal 3 1 (-1)` succeeds with a point list, because the only
validation anywhere in the core is the `n_sides < 3` check. -/
theorem claim_C2_counterexample :
    ¬ (∀ (n : ℕ) (s : ℝ) (d : ℤ), n < 3 ∨ d < 0 ∨ s ≤ 0 →
        ∃ e, generate_fractal n s d = .error e) := by
  intro h
  obtain ⟨e, he⟩ := h 3 1 (-1) (Or.inr (Or.inl (by norm_num)))
  have hok : generate_fractal 3 1 (-1) =
      .ok (koch_iter^[(-1 : ℤ).toNat]
        ((List.range (3 + 1)).map (polyVertex 3 1))) := by
    unfold generate_fractal
    rw [regular_polygon_ok' (by norm_num : 3 ≤ 3)]
  rw [he] at hok
  exact Except.noConfusion hok

/-- C2 amended: the core validates only `sides < 3` (raising immediately
with no point sequence); `depth < 0` and `length ≤ 0` are accepted —
negative depth behaves as zero iterations and non-positive length yields a
degenerate polygon. -/
theorem claim_C2 :
    (∀ (n : ℕ) (s : ℝ) (d : ℤ), n < 3 →
        generate_fractal n s d = .error "Number of sides must be >= 3") ∧
    (generate_fractal 3 1 (-1)).isOk = true ∧
    (generate_fractal 3 0 0).isOk = true := by
  refine ⟨?_, ?_, ?_⟩
  · intro n s d hn
    unfold generate_fractal regular_polygon
    rw [if_pos hn]
  · unfold generate_fractal
    rw [regular_polygon_ok' (by norm_num : 3 ≤ 3)]
    rfl
  · unfold generate_fractal
    rw [regular_polygon_ok' (by norm_num : 3 ≤ 3)]
    rfl

theorem claim_C2_witness :
    generate_fractal 2 1 0 = .error "Number of sides must be >= 3" :=
  claim_C2.1 2 1 0 (by norm_num)

/-- C3: for sides ≥ 3, depth ≥ 0, length > 0, every consecutive pair of
output points is at Euclidean distance exactly `length / 3^depth` (real
arithmetic; hence well within the spec's 1e-9 relative tolerance). -/
theorem claim_C3 (n : ℕ) (s : ℝ) (d : ℕ) (hn : 3 ≤ n) (hs : 0 < s) :
    ∃ pts, generate_fractal n s (d : ℤ) = .ok pts ∧
      List.Chain' (fun p q => ptDist p q = s / 3 ^ d) pts := by
  obtain ⟨pts, hgen, _, _, _, hchain⟩ := generate_fractal_spec hn hs d
  exact ⟨pts, hgen, hchain⟩

theorem claim_C3_witness :
    ∃ pts, generate_fractal 3 1 ((1 : ℕ) : ℤ) = .ok pts ∧
      List.Chain' (fun p q => ptDist p q = 1 / 3 ^ (1 : ℕ)) pts :=
  claim_C3 3 1 1 (by norm_num) (by norm_num)

/-- C4: `koch_subdivide p0 p1` is exactly `[p0, a, peak, b, p1]` with the
trisection points and the +60°-rotated peak of the spec, and the four
consecutive segments all have length `|p1 − p0| / 3` (the list form itself
gives the continuity of the path). -/
theorem claim_C4 (p0 p1 : Point) (_hne : p0 ≠ p1) :
    koch_subdivide p0 p1 =
      [p0,
       (p0.1 + (p1.1 - p0.1) / 3, p0.2 + (p1.2 - p0.2) / 3),
       (p0.1 + (p1.1 - p0.1) / 3 + (p1.1 - p0.1) / 3 * (1 / 2) -
          (p1.2 - p0.2) / 3 * (Real.sqrt 3 / 2),
        p0.2 + (p1.2 - p0.2) / 3 + (p1.1 - p0.1) / 3 * (Real.sqrt 3 / 2) +
          (p1.2 - p0.2) / 3 * (1 / 2)),
       (p0.1 + 2 * (p1.1 - p0.1) / 3, p0.2 + 2 * (p1.2 - p0.2) / 3),
       p1] ∧
    List.Chain' (fun p q => ptDist p q = ptDist p0 p1 / 3) (koch_subdivide p0 p1) :=
  ⟨rfl, koch_subdivide_chain p0 p1⟩

theorem claim_C4_witness :
    List.Chain'
      (fun p q => ptDist p q = ptDist ((0 : ℝ), (0 : ℝ)) ((3 : ℝ), (0 : ℝ)) / 3)
      (koch_subdivide ((0 : ℝ), (0 : ℝ)) ((3 : ℝ), (0 : ℝ))) :=
  (claim_C4 ((0 : ℝ), (0 : ℝ)) ((3 : ℝ), (0 : ℝ))
    (by norm_num [Prod.ext_iff])).2

/-- C5: for sides ≥ 3 and length > 0, `regular_polygon` returns exactly
the spec's vertex list: `sides` vertices at angles `2πk/sides` on the
circle of circumradius `length/(2·sin(π/sides))`, then a copy of
vertex 0. -/
theorem claim_C5 (n : ℕ) (s : ℝ) (hn : 3 ≤ n) (_hs : 0 < s) :
    regular_polygon n s = .ok (specPolygon n s) := by
  rw [regular_polygon_ok hn]
  unfold specPolygon
  have h0 : polyVertex n s 0 =
      (s / (2 * Real.sin (Real.pi / n)) * Real.cos 0,
       s / (2 * Real.sin (Real.pi / n)) * Real.sin 0) := by
    rw [polyVertex_zero]
    norm_num
  rw [h0]
  rfl

theorem claim_C5_witness : regular_polygon 3 1 = .ok (specPolygon 3 1) :=
  claim_C5 3 1 (by norm_num) (by norm_num)

/-- C6: at depth 0 `generate_fractal` returns the polygon builder's output
unchanged (identity law). -/
theorem claim_C6 (n : ℕ) (s : ℝ) (_hn : 3 ≤ n) (_hs : 0 < s) :
    generate_fractal n s 0 = regular_polygon n s := by
  unfold generate_fractal
  cases h : regular_polygon n s with
  | error e => rfl
  | ok pts => simp

theorem claim_C6_witness : generate_fractal 3 1 0 = regular_polygon 3 1 :=
  claim_C6 3 1 (by norm_num) (by norm_num)

/-- C7: for fixed sides ≥ 3 and length > 0, the summary's perimeter
`sides·4^depth · length/3^depth` strictly increases with depth. -/
theorem claim_C7 (n : ℕ) (s : ℝ) (d : ℕ) (hn : 3 ≤ n) (hs : 0 < s) :
    perimeter n s d < perimeter n s (d + 1) := by
  have hn0 : 0 < n := by omega
  have hpos : 0 < perimeter n s d := by
    unfold perimeter segment_count segment_length
    have h1 : (0 : ℝ) < ((n * 4 ^ d : ℕ) : ℝ) := by
      exact_mod_cast Nat.mul_pos hn0 (Nat.pos_pow_of_pos d (by norm_num))
    have h2 : (0 : ℝ) < s / 3 ^ d := by positivity
    exact mul_pos h1 h2
  have hstep : perimeter n s (d + 1) = (4 / 3) * perimeter n s d := by
    unfold perimeter segment_count segment_length
    push_cast
    field_simp
    ring
  rw [hstep]
  linarith

theorem claim_C7_witness : perimeter 3 1 0 < perimeter 3 1 (0 + 1) :=
  claim_C7 3 1 0 (by norm_num) (by norm_num)

/-- C8: sides = 3, depth = 0 gives exactly 4 points, a closed equilateral
triangle with all 3 edges of length exactly `length`. -/
theorem claim_C8 (s : ℝ) (hs : 0 < s) :
    ∃ pts, generate_fractal 3 s ((0 : ℕ) : ℤ) = .ok pts ∧
      pts.length = 4 ∧
      pts.head? = pts.getLast? ∧
      List.Chain' (fun p q => ptDist p q = s) pts := by
  obtain ⟨pts, hgen, hlen, _, hclosed, hchain⟩ :=
    generate_fractal_spec (by norm_num : 3 ≤ 3) hs 0
  refine ⟨pts, hgen, by rw [hlen]; norm_num, hclosed, ?_⟩
  simpa using hchain

theorem claim_C8_witness :
    ∃ pts, generate_fractal 3 1 ((0 : ℕ) : ℤ) = .ok pts ∧
      pts.length = 4 ∧
      pts.head? = pts.getLast? ∧
      List.Chain' (fun p q => ptDist p q = 1) pts :=
  claim_C8 1 (by norm_num)

/-- C9: `koch_subdivide` is total, and on the degenerate input `p0 = p1`
it returns five copies of the point. -/
theorem claim_C9 (p : Point) : koch_subdivide p p = [p, p, p, p, p] := by
  obtain ⟨x, y⟩ := p
  rw [koch_subdivide_eq]
  have ha : kA (x, y) (x, y) = (x, y) := by
    unfold kA
    norm_num
  have hb : kB (x, y) (x, y) = (x, y) := by
    unfold kB
    norm_num
  have hp : kPeak (x, y) (x, y) = (x, y) := by
    unfold kPeak kA
    norm_num
  rw [ha, hb, hp]

/-- C10: the first output point of `generate_fractal` is the base
polygon's vertex 0, `(length/(2·sin(π/sides)), 0)`, at every depth; and a
further `koch_iter` step keeps it as the first point. -/
theorem claim_C10 (n : ℕ) (s : ℝ) (d : ℕ) (hn : 3 ≤ n) (hs : 0 < s) :
    ∃ pts, generate_fractal n s (d : ℤ) = .ok pts ∧
      pts.head? = some (s / (2 * Real.sin (Real.pi / n)), 0) ∧
      (koch_iter pts).head? = pts.head? := by
  obtain ⟨pts, hgen, hlen, hhead, _, _⟩ := generate_fractal_spec hn hs d
  have h2 : 2 ≤ pts.length := by
    rw [hlen]
    have h4 : 1 ≤ 4 ^ d := Nat.one_le_pow d 4 (by norm_num)
    have h14 : 1 * 1 ≤ n * 4 ^ d := Nat.mul_le_mul (by omega) h4
    omega
  refine ⟨pts, hgen, ?_, koch_iter_head h2⟩
  rw [hhead, polyVertex_zero]

theorem claim_C10_witness :
    ∃ pts, generate_fractal 4 1 ((1 : ℕ) : ℤ) = .ok pts ∧
      pts.head? = some (1 / (2 * Real.sin (Real.pi / 4)), 0) ∧
      (koch_iter pts).head? = pts.head? :=
  claim_C10 4 1 1 (by norm_num) (by norm_num)

end Fractal
